/-
Verification of the `sync` repository's aggregation and quality-control
modules (src/src/aggregation/aggregate.py, src/src/qc/quality_control.py).

The Python code is shallowly embedded: strings are `List Char`, Python
`int(...)` parsing is `pyInt?` (returning `none` where Python raises
`ValueError`), and every Python function that can raise an uncaught
exception is embedded as an `Option`-returning function where `none`
models the exception escaping.
-/
import Mathlib

namespace Sync

/-- Python strings are modelled as lists of characters. -/
abbrev Str := List Char

/-! ## Time codec (`Aggregator._time_to_minutes`, `Aggregator._minutes_to_time`) -/

/-- Value of a decimal digit character, `none` for a non-digit. -/
def digitVal? (c : Char) : Option Nat :=
  if c.isDigit then some (c.toNat - 48) else none

/-- Decimal value of a nonempty all-digit string, `none` otherwise. -/
def digitsVal? : Str → Option Nat
  | [] => none
  | cs => cs.foldlM (fun acc c => (digitVal? c).map (fun d => acc * 10 + d)) 0

/-- Python `int(s)` on a (possibly signed) decimal string; `none` models
`ValueError`.  Whitespace stripping and digit underscores accepted by the
Python builtin are not modelled; no input exercised here contains them. -/
def pyInt? : Str → Option Int
  | '-' :: rest => (digitsVal? rest).map (fun n => -(n : Int))
  | '+' :: rest => (digitsVal? rest).map (fun n => (n : Int))
  | s => (digitsVal? s).map (fun n => (n : Int))

/-- Python `s.split(":")`: split on every colon, keeping empty pieces. -/
def splitOnColon : Str → List Str
  | [] => [[]]
  | c :: rest =>
    if c = ':' then [] :: splitOnColon rest
    else
      match splitOnColon rest with
      | [] => [[c]]
      | g :: gs => (c :: g) :: gs

/-- `Aggregator._time_to_minutes`: `parts = time_str.split(":");
return int(parts[0]) * 60 + int(parts[1])`.  A `ValueError` from `int` or an
`IndexError` from a colonless string is modelled by `none`. -/
def timeToMinutes (time_str : Str) : Option Int :=
  match splitOnColon time_str with
  | p0 :: p1 :: _ => do
      let h ← pyInt? p0
      let m ← pyInt? p1
      pure (h * 60 + m)
  | _ => none

/-- Digits of `n` in base 10, most significant first (fuel-structural so that
kernel reduction works; the fuel `n+1` always suffices). -/
def natDigitsCore : Nat → Nat → Str → Str
  | 0, _, acc => acc
  | fuel + 1, n, acc =>
    if n < 10 then Nat.digitChar n :: acc
    else natDigitsCore fuel (n / 10) (Nat.digitChar (n % 10) :: acc)

/-- Decimal digit string of a natural number. -/
def natDigits (n : Nat) : Str := natDigitsCore (n + 1) n []

/-- Python `f"{n:02d}"`: decimal rendering padded to width 2 with zeros
(the sign counts toward the width, as in Python). -/
def fmt02 (n : Int) : Str :=
  if n < 0 then '-' :: natDigits n.natAbs
  else if n < 10 then '0' :: natDigits n.toNat
  else natDigits n.toNat

/-- `Aggregator._minutes_to_time`: `hours = minutes // 60; mins = minutes % 60;
return f"{hours:02d}:{mins:02d}"` (Python `//`/`%` are floor division). -/
def minutesToTime (minutes : Int) : Str :=
  fmt02 (minutes.fdiv 60) ++ ':' :: fmt02 (minutes.fmod 60)

/-- Python string `<` (lexicographic by code point). -/
def pyStrLt : Str → Str → Bool
  | [], [] => false
  | [], _ :: _ => true
  | _ :: _, [] => false
  | a :: s, b :: t => if a = b then pyStrLt s t else decide (a < b)

/-- Python string `<=`, i.e. not `>`. -/
def pyStrLe (s t : Str) : Bool := !(pyStrLt t s)

/-- Shape check used to state claims: a 5-character `HH:MM`-shaped string. -/
def isHHMMShape (s : Str) : Bool :=
  match s with
  | [a, b, c, d, e] => a.isDigit && b.isDigit && (c = ':') && d.isDigit && e.isDigit
  | _ => false

/-- A canonical clock-time string: one that round-trips through the codec
with a same-day minute value. -/
def canonicalTime (s : Str) : Bool :=
  match timeToMinutes s with
  | some m => decide (0 ≤ m) && decide (m < 1440) && decide (minutesToTime m = s)
  | none => false

/-! ## Stable sort

CPython's `sorted(...)`/`list.sort(...)` is a stable sort; with
`reverse=True` it is documented to keep the original relative order of
equal elements.  A stable sort by a total preorder is uniquely determined,
so it is embedded as a stable insertion sort: `le x y` means "x may be
placed before y", and an element is inserted before the first already-placed
element it `le`-relates to (so it lands after everything strictly smaller
under the comparison, and before later-arriving equals). -/

/-- Insert `x` into `l` before the first element `y` with `le x y`. -/
def insertBy (le : α → α → Bool) (x : α) : List α → List α
  | [] => [x]
  | y :: ys => if le x y then x :: y :: ys else y :: insertBy le x ys

/-- Stable insertion sort with "may precede" test `le`. -/
def insertionSortBy (le : α → α → Bool) : List α → List α
  | [] => []
  | x :: xs => insertBy le x (insertionSortBy le xs)

/-! ## Aggregation data model (`aggregate.py`)

Python dicts are embedded as structures; a key read with `d.get(k, default)`
becomes an `Option` field with the default applied at the read site, and a
key read with `d[k]` (raising `KeyError` if absent) becomes a plain field. -/

/-- One `clean_slots` element: `{"start": ..., "end": ..., "location"?: ...}`. -/
structure Slot where
  start : Str
  «end» : Str
  location : Option Str := none
  deriving DecidableEq

/-- One `validated_entries` element as read by `Aggregator.aggregate`:
`entry["user_id"]` is required, `entry.get("user_name", user_id)` and
`entry.get("clean_slots", [])` are optional. -/
structure AggEntry where
  user_id : Str
  user_name : Option Str := none
  clean_slots : Option (List Slot) := none
  deriving DecidableEq

/-- The top-level `qc_output` dict: `qc_output.get("validated_entries", [])`
(the `flagged_entries` key is never read by the aggregation core). -/
structure AggInput where
  validated_entries : Option (List AggEntry) := none
  deriving DecidableEq

/-- A flattened `all_slots` element. -/
structure FlatSlot where
  user_id : Str
  user_name : Str
  start : Str
  «end» : Str
  deriving DecidableEq

/-- A `time_slots` element: the flat slot with converted minute values. -/
structure TimeSlot where
  user_id : Str
  user_name : Str
  start_min : Int
  end_min : Int
  start : Str
  «end» : Str
  deriving DecidableEq

/-- An `intersections` record (also the shape of a merged record, which in
the source is the same dict mutated in place; `overlap_minutes` goes stale
under merging exactly as in the source). -/
structure Inter where
  start : Str
  «end» : Str
  participants : List Str
  participant_names : List Str
  overlap_minutes : Int
  deriving DecidableEq

/-- One `optimal_times` element of the final result. -/
structure OptimalTime where
  start : Str
  «end» : Str
  participants : List Str
  participant_names : List Str
  confidence : ℚ
  deriving DecidableEq

/-- The aggregation result envelope. -/
structure AggResult where
  optimal_times : List OptimalTime
  participant_count : Nat
  response_rate : ℚ
  status : Str
  deriving DecidableEq

/-- `Aggregator.__init__`: `self.min_participants = 1` (never read later). -/
def min_participants : Nat := 1

/-- `Aggregator.__init__`: `self.min_overlap_minutes = 30`. -/
def min_overlap_minutes : Int := 30

/-! ## Pairwise intersector (`Aggregator._find_optimal_overlaps`, first half) -/

/-- Minute conversion of one slot (raises, i.e. `none`, on a malformed
time string). -/
def toTimeSlot (slot : FlatSlot) : Option TimeSlot := do
  let start_min ← timeToMinutes slot.start
  let end_min ← timeToMinutes slot.«end»
  pure { user_id := slot.user_id, user_name := slot.user_name,
         start_min := start_min, end_min := end_min,
         start := slot.start, «end» := slot.«end» }

/-- The conversion loop over `slots` (the first `for slot in slots` loop);
the first conversion failure aborts the whole aggregation, as in the source
where the `ValueError` is uncaught. -/
def convertSlots : List FlatSlot → Option (List TimeSlot)
  | [] => some []
  | slot :: rest => do
      let t ← toTimeSlot slot
      let ts ← convertSlots rest
      pure (t :: ts)

/-- Loop body for one ordered pair `(slot1, slot2)`: emit an intersection
record when the overlap window is nonempty and meets the threshold.
Python's `list({a, b})` set round-trip is embedded as `List.dedup`
(the two ids are distinct whenever this is called, so only the set's
unspecified iteration order is being fixed). -/
def pairOverlap (slot1 slot2 : TimeSlot) : Option Inter :=
  let overlap_start := max slot1.start_min slot2.start_min
  let overlap_end := min slot1.end_min slot2.end_min
  if overlap_start < overlap_end then
    let overlap_minutes := overlap_end - overlap_start
    if min_overlap_minutes ≤ overlap_minutes then
      some { start := minutesToTime overlap_start,
             «end» := minutesToTime overlap_end,
             participants := [slot1.user_id, slot2.user_id].dedup,
             participant_names := [slot1.user_name, slot2.user_name],
             overlap_minutes := overlap_minutes }
    else none
  else none

/-- The double loop over `enumerate(time_slots)` pairs with the
`i >= j or slot1["user_id"] == slot2["user_id"]` skip: each unordered pair
of positions is visited once, with `slot2` drawn from the tail after
`slot1`, in exactly the source's emission order. -/
def findIntersections : List TimeSlot → List Inter
  | [] => []
  | slot1 :: rest =>
      rest.filterMap (fun slot2 =>
        if slot1.user_id = slot2.user_id then none
        else pairOverlap slot1 slot2) ++ findIntersections rest

/-! ## Interval merger (`Aggregator._merge_intersections`) -/

/-- The in-place merge of one record into `merged[-1]`:
`last["end"] = max(...)`, `last["participants"] = list(set(... + ...))`,
`last["participant_names"] = list(set(... + ...))`; `list(set(xs))` is
embedded as `(xs).dedup`. -/
def mergeRecords (last inter : Inter) (e : Str) : Inter :=
  { last with
    «end» := e,
    participants := (last.participants ++ inter.participants).dedup,
    participant_names :=
      (last.participant_names ++ inter.participant_names).dedup }

/-- The sweep loop.  `acc` is the `merged` list in reverse (its head is
`merged[-1]`, the record the source mutates in place).  Python's
`max(last["end"], inter["end"], key=...)` keeps `last["end"]` on ties. -/
def mergeLoop : List Inter → List Inter → Option (List Inter)
  | acc, [] => some acc.reverse
  | [], inter :: rest => mergeLoop [inter] rest
  | last :: accTail, inter :: rest => do
      let last_end_min ← timeToMinutes last.«end»
      let inter_start_min ← timeToMinutes inter.start
      if inter_start_min ≤ last_end_min then
        let inter_end_min ← timeToMinutes inter.«end»
        let merged : Inter := mergeRecords last inter
          (if last_end_min < inter_end_min then inter.«end» else last.«end»)
        mergeLoop (merged :: accTail) rest
      else
        mergeLoop (inter :: last :: accTail) rest

/-- `Aggregator._merge_intersections` (its `participant_names` parameter is
never read in the source and is omitted): sort ascending by the `start`
string, then sweep. -/
def mergeIntersections (intersections : List Inter) : Option (List Inter) :=
  if intersections.isEmpty then some []
  else mergeLoop [] (insertionSortBy (fun a b => pyStrLe a.start b.start) intersections)

/-! ## Scorer (`Aggregator._find_optimal_overlaps`, second half) -/

/-- Round-half-even of the fraction `a / b` (`b > 0`): the integer part is
`a / b` (Lean `Int` division is euclidean, which is floor division for a
positive divisor) and the fractional part `(a % b) / b` compares with `1/2`
as `2*(a % b)` compares with `b`. -/
def roundHalfEven (a b : Int) : Int :=
  if 2 * (a % b) < b then a / b
  else if b < 2 * (a % b) then a / b + 1
  else if (a / b) % 2 = 0 then a / b else a / b + 1

/-- Python `round(x, 2)` on the exact rational value: round half to even at
two decimal places, i.e. `roundHalfEven` applied to `x*100 = (q.num*100)/q.den`.
(The source rounds a float; the claims are stated against this
exact-rational rounding.  Everything is kept in integer/`mkRat` form so the
kernel can evaluate it.) -/
def pyRound2 (q : ℚ) : ℚ :=
  mkRat (roundHalfEven (q.num * 100) (q.den : Int)) 100

/-- `Aggregator._find_optimal_overlaps`: convert, intersect pairwise, merge,
then attach a confidence to each merged slot. -/
def findOptimalOverlaps (slots : List FlatSlot) (all_participants : List Str) :
    Option (List OptimalTime) :=
  if slots.isEmpty then some []
  else do
    let time_slots ← convertSlots slots
    let intersections := findIntersections time_slots
    let merged ← mergeIntersections intersections
    let total_participants := all_participants.length
    pure (merged.map (fun merged_slot =>
      let participant_count := merged_slot.participants.length
      let confidence : ℚ :=
        if 0 < total_participants then
          mkRat (participant_count : Int) total_participants
        else 0
      { start := merged_slot.start, «end» := merged_slot.«end»,
        participants := merged_slot.participants,
        participant_names := merged_slot.participant_names,
        confidence := pyRound2 confidence }))

/-! ## Orchestrator (`Aggregator.aggregate`) -/

/-- The `entry.get("user_name", user_id)` read. -/
def entryName (e : AggEntry) : Str := e.user_name.getD e.user_id

/-- The `all_slots` flattening loop. -/
def allSlotsOf (validated_entries : List AggEntry) : List FlatSlot :=
  validated_entries.flatMap (fun entry =>
    (entry.clean_slots.getD []).map (fun slot =>
      { user_id := entry.user_id, user_name := entryName entry,
        start := slot.start, «end» := slot.«end» }))

/-- The `participant_ids` set, as its insertion-ordered element list (only
its cardinality and membership are ever used). -/
def participantIdsOf (validated_entries : List AggEntry) : List Str :=
  (validated_entries.map (·.user_id)).dedup

/-- The unsorted `optimal_times` list, i.e. the value of
`self._find_optimal_overlaps(all_slots, list(participant_ids), ...)`. -/
def preSortTimes (qc_output : AggInput) : Option (List OptimalTime) :=
  let validated_entries := qc_output.validated_entries.getD []
  findOptimalOverlaps (allSlotsOf validated_entries) (participantIdsOf validated_entries)

/-- Sort key: Python's tuple `(len(x["participants"]), x["confidence"])`. -/
def otKey (x : OptimalTime) : Nat × ℚ := (x.participants.length, x.confidence)

/-- Python `<=` on the sort-key tuples (lexicographic). -/
def otKeyLe (x y : OptimalTime) : Bool :=
  decide (x.participants.length < y.participants.length) ||
    (decide (x.participants.length = y.participants.length) &&
      decide (x.confidence ≤ y.confidence))

/-- The result returned on an empty roster. -/
def emptyResult : AggResult :=
  { optimal_times := [], participant_count := 0, response_rate := 0,
    status := "active".data }

/-- `Aggregator.aggregate`.  `optimal_times.sort(key=..., reverse=True)` is
the stable descending sort: `x` may precede `y` exactly when `key y ≤ key x`. -/
def aggregate (qc_output : AggInput) : Option AggResult :=
  let validated_entries := qc_output.validated_entries.getD []
  if validated_entries.length = 0 then some emptyResult
  else do
    let found ← preSortTimes qc_output
    let optimal_times := insertionSortBy (fun x y => otKeyLe y x) found
    let participant_count := (participantIdsOf validated_entries).length
    let response_rate : ℚ := if 0 < participant_count then 1 else 0
    pure { optimal_times := optimal_times, participant_count := participant_count,
           response_rate := response_rate, status := "active".data }

/-! ## Quality control (`quality_control.py`)

The aggregation claims treat the QC stage only through claim C10, so the
embedding mirrors `QualityControl` directly. -/

/-- One `parsed_slots` element of an incoming message. -/
structure PSlot where
  start : Option Str := none
  «end» : Option Str := none
  conf : Option ℚ := none
  location : Option Str := none
  deriving DecidableEq

/-- One element of `data["messages"]`. -/
structure Msg where
  user_id : Option Str := none
  user_name : Option Str := none
  parsed_slots : List PSlot := []
  parsed_locations : List Str := []
  deriving DecidableEq

/-- The entry dict built by `_validate_single_entry`.  In the source the
`flags` key is present only when the list is nonempty and the `locations`
key only when `parsed_locations` is truthy; both are embedded as
always-present lists (absent ≘ `[]`). -/
structure QCEntry where
  user_id : Option Str
  user_name : Option Str
  clean_slots : List Slot
  status : Str
  locations : List Str
  flags : List Str
  deriving DecidableEq

/-- The `data` dict consumed by `validate_entries` (`channel_id` is never
read). -/
structure QCData where
  messages : List Msg := []
  deriving DecidableEq

/-- Output of `validate_entries`. -/
structure QCResult where
  validated_entries : List QCEntry
  flagged_entries : List QCEntry
  deriving DecidableEq

/-- `QualityControl.__init__`: `self.min_confidence = 0.5` (written as
`mkRat` so the kernel can evaluate comparisons against it). -/
def min_confidence : ℚ := mkRat 1 2

/-- `QualityControl.__init__`: `self.min_slots = 1` (never read later). -/
def min_slots : Nat := 1

/-- `QualityControl.__init__`: `self.max_time_range_hours = 24`. -/
def max_time_range_hours : ℚ := 24

/-- Python truthiness of an optional string (`None` and `""` are falsy). -/
def pyTruthy (o : Option Str) : Bool :=
  match o with
  | none => false
  | some s => !s.isEmpty

/-- `QualityControl._is_valid_time`. -/
def isValidTime (time_str : Str) : Bool :=
  match splitOnColon time_str with
  | [p0, p1] =>
    match pyInt? p0, pyInt? p1 with
    | some hour, some minute =>
        decide (0 ≤ hour) && decide (hour < 24) &&
          decide (0 ≤ minute) && decide (minute < 60)
    | _, _ => false
  | _ => false

/-- `QualityControl._is_valid_time_range`: the body always returns `True`;
`False` only escapes through the `except` on an unparseable time (the same
split-and-int computation as `_time_to_minutes`). -/
def isValidTimeRange (start «end» : Str) : Bool :=
  (timeToMinutes start).isSome && (timeToMinutes «end»).isSome

/-- `QualityControl._get_time_range_hours` (`0.0` on a parse failure). -/
def getTimeRangeHours (start «end» : Str) : ℚ :=
  match timeToMinutes start, timeToMinutes «end» with
  | some start_minutes, some end_minutes =>
      if start_minutes ≤ end_minutes then
        mkRat (end_minutes - start_minutes) 60
      else mkRat (24 * 60 - start_minutes + end_minutes) 60
  | _, _ => 0

/-- `QualityControl._validate_slot`, returning the slot's flag list in the
source's emission order (note the early returns after `missing_time` and
`invalid_time_format`). -/
def validateSlot (slot : PSlot) : List Str :=
  match slot.start, slot.«end» with
  | some start, some «end» =>
      let confidence := slot.conf.getD 0
      let flags0 : List Str :=
        if confidence < min_confidence then ["low_confidence".data] else []
      if !(isValidTime start) || !(isValidTime «end») then
        flags0 ++ ["invalid_time_format".data]
      else
        let flags1 := flags0 ++
          (if !(isValidTimeRange start «end») then ["invalid_time_range".data] else [])
        flags1 ++
          (if max_time_range_hours < getTimeRangeHours start «end» then
            ["range_too_large".data] else [])
  | _, _ => ["missing_time".data]

/-- Loop body of the `for slot in parsed_slots` loop in
`_validate_single_entry`: accumulate `(clean_slots, flags)`. -/
def slotStep (acc : List Slot × List Str) (slot : PSlot) : List Slot × List Str :=
  let slot_flags := validateSlot slot
  if slot_flags.isEmpty then
    let clean_slot : Slot :=
      { start := slot.start.getD [], «end» := slot.«end».getD [],
        location := if pyTruthy slot.location then slot.location else none }
    (acc.1 ++ [clean_slot], acc.2)
  else
    (acc.1, acc.2 ++ slot_flags.map (fun f => "slot_".data ++ f))

/-- `QualityControl._validate_single_entry`. -/
def validateSingleEntry (msg : Msg) : QCEntry :=
  let user_id := msg.user_id
  let user_name := msg.user_name <|> msg.user_id
  let parsed_slots := msg.parsed_slots
  let flags0 : List Str :=
    if !(pyTruthy user_id) then ["missing_user_id".data] else []
  let flags1 := flags0 ++
    (if parsed_slots.length = 0 then ["no_time_slots".data] else [])
  let cf := parsed_slots.foldl slotStep ([], flags1)
  let clean_slots := cf.1
  let flags2 := cf.2 ++
    (if clean_slots.length = 0 && 0 < parsed_slots.length then
      ["no_valid_slots".data] else [])
  let status := if flags2.isEmpty && !clean_slots.isEmpty then "valid".data
                else "flagged".data
  { user_id := user_id, user_name := user_name, clean_slots := clean_slots,
    status := status, locations := msg.parsed_locations, flags := flags2 }

/-- `QualityControl.validate_entries`: the loop appends each entry to
exactly one of the two lists according to its status, so it is the pair of
complementary filters of the mapped list. -/
def validateEntries (data : QCData) : QCResult :=
  let entries := data.messages.map validateSingleEntry
  { validated_entries := entries.filter (fun e => e.status = "valid".data),
    flagged_entries := entries.filter (fun e => ¬ (e.status = "valid".data)) }

/-! ## Concrete instances used by the claim theorems and witnesses -/

/-- The pairwise record `[A,B] 09:00-10:00` as `_find_optimal_overlaps`
would emit it. -/
def c1recAB : Inter :=
  { start := "09:00".data, «end» := "10:00".data,
    participants := ["A".data, "B".data],
    participant_names := ["nameA".data, "nameB".data], overlap_minutes := 60 }

/-- The pairwise record `[A,C] 09:30-10:30`. -/
def c1recAC : Inter :=
  { start := "09:30".data, «end» := "10:30".data,
    participants := ["A".data, "C".data],
    participant_names := ["nameA".data, "nameC".data], overlap_minutes := 60 }

/-- The pairwise record `[B,C] 09:45-11:00`. -/
def c1recBC : Inter :=
  { start := "09:45".data, «end» := "11:00".data,
    participants := ["B".data, "C".data],
    participant_names := ["nameB".data, "nameC".data], overlap_minutes := 75 }

/-- An entry whose only slot has the unparseable start time `"morning"`. -/
def c3badEntry : AggEntry :=
  { user_id := "U1".data, user_name := some "Alice".data,
    clean_slots := some [{ start := "morning".data, «end» := "10:00".data }] }

/-- A well-formed entry for a second participant. -/
def c3goodEntry : AggEntry :=
  { user_id := "U2".data, user_name := some "Bob".data,
    clean_slots := some [{ start := "09:00".data, «end» := "10:00".data }] }

/-- Converted slot `U1` free 09:00-09:30 (a 30-minute window). -/
def c2slot1 : TimeSlot :=
  { user_id := "U1".data, user_name := "Alice".data,
    start_min := 540, end_min := 570, start := "09:00".data, «end» := "09:30".data }

/-- Converted slot `U2` free 09:00-10:00. -/
def c2slot2 : TimeSlot :=
  { user_id := "U2".data, user_name := "Bob".data,
    start_min := 540, end_min := 600, start := "09:00".data, «end» := "10:00".data }

/-- The exactly-30-minute record the pair above emits. -/
def c2rec : Inter :=
  { start := "09:00".data, «end» := "09:30".data,
    participants := ["U1".data, "U2".data],
    participant_names := ["Alice".data, "Bob".data], overlap_minutes := 30 }

/-- A message that passes validation. -/
def c10msg : Msg :=
  { user_id := some "U7".data, user_name := some "Grace".data,
    parsed_slots := [{ start := some "09:00".data, «end» := some "10:00".data,
                       conf := some (mkRat 9 10) }] }

/-- Its QC entry. -/
def c10entry : QCEntry := validateSingleEntry c10msg

/-- Well-formedness of a record's participant list, carried through the
pipeline: no duplicates, and every id is the owner of some slot. -/
def interWF (owners : List Str) (r : Inter) : Prop :=
  r.participants.Nodup ∧ ∀ u ∈ r.participants, u ∈ owners

/-- Two-entry roster for the confidence-claim witness: `U1` free
19:00-23:00, `U2` free 20:00-22:00. -/
def c5input : AggInput :=
  { validated_entries := some
      [{ user_id := "U1".data, user_name := some "Alice".data,
         clean_slots := some [{ start := "19:00".data, «end» := "23:00".data }] },
       { user_id := "U2".data, user_name := some "Bob".data,
         clean_slots := some [{ start := "20:00".data, «end» := "22:00".data }] }] }

/-- The single optimal time computed for `c5input`. -/
def c5ot : OptimalTime :=
  { start := "20:00".data, «end» := "22:00".data,
    participants := ["U1".data, "U2".data],
    participant_names := ["Alice".data, "Bob".data], confidence := 1 }

/-- The full result computed for `c5input`. -/
def c5res : AggResult :=
  { optimal_times := [c5ot], participant_count := 2, response_rate := 1,
    status := "active".data }

/-- Display-name lookup keyed on participant id, read off the flattened
slot list (used to state the name-cardinality invariant). -/
def nameOf (slots : List FlatSlot) (u : Str) : Str :=
  (((slots.find? (fun s => s.user_id == u)).map (fun s => s.user_name)).getD u)

/-- Name-list well-formedness of a record under a name map `nm`: no
duplicates, and the name set is the image of the participant-id set. -/
def interNW (nm : Str → Str) (r : Inter) : Prop :=
  r.participant_names.Nodup ∧
    r.participant_names.toFinset = r.participants.toFinset.image nm

/-- Three-entry roster in which `U1` and `U2` share the display name `X`. -/
def c7input : AggInput :=
  { validated_entries := some
      [{ user_id := "U1".data, user_name := some "X".data,
         clean_slots := some [{ start := "09:00".data, «end» := "10:00".data }] },
       { user_id := "U2".data, user_name := some "X".data,
         clean_slots := some [{ start := "09:30".data, «end» := "10:30".data }] },
       { user_id := "U3".data, user_name := some "Y".data,
         clean_slots := some [{ start := "09:00".data, «end» := "10:30".data }] }] }

/-- The single optimal time computed for `c7input`: three participant ids
but only two distinct display names survive the set-union of names. -/
def c7ot : OptimalTime :=
  { start := "09:00".data, «end» := "10:30".data,
    participants := ["U1".data, "U2".data, "U3".data],
    participant_names := ["X".data, "Y".data], confidence := 1 }

/-- The full result computed for `c7input`. -/
def c7res : AggResult :=
  { optimal_times := [c7ot], participant_count := 3, response_rate := 1,
    status := "active".data }

/-- The same roster with pairwise-distinct display names. -/
def c7winput : AggInput :=
  { validated_entries := some
      [{ user_id := "U1".data, user_name := some "X1".data,
         clean_slots := some [{ start := "09:00".data, «end» := "10:00".data }] },
       { user_id := "U2".data, user_name := some "X2".data,
         clean_slots := some [{ start := "09:30".data, «end» := "10:30".data }] },
       { user_id := "U3".data, user_name := some "Y".data,
         clean_slots := some [{ start := "09:00".data, «end» := "10:30".data }] }] }

/-- The single optimal time computed for `c7winput`. -/
def c7wot : OptimalTime :=
  { start := "09:00".data, «end» := "10:30".data,
    participants := ["U1".data, "U2".data, "U3".data],
    participant_names := ["X1".data, "X2".data, "Y".data], confidence := 1 }

/-- The full result computed for `c7winput`. -/
def c7wres : AggResult :=
  { optimal_times := [c7wot], participant_count := 3, response_rate := 1,
    status := "active".data }

/-- Three-entry roster producing two merged intervals with different
participant counts (the pre-sort sweep emits the smaller one first). -/
def c6input : AggInput :=
  { validated_entries := some
      [{ user_id := "U1".data, user_name := some "A".data,
         clean_slots := some [{ start := "08:00".data, «end» := "09:00".data },
                              { start := "20:00".data, «end» := "22:00".data }] },
       { user_id := "U2".data, user_name := some "B".data,
         clean_slots := some [{ start := "08:00".data, «end» := "09:00".data },
                              { start := "20:00".data, «end» := "22:00".data }] },
       { user_id := "U3".data, user_name := some "C".data,
         clean_slots := some [{ start := "20:00".data, «end» := "22:00".data }] }] }

/-- The morning interval of `c6input` (two participants). -/
def c6otA : OptimalTime :=
  { start := "08:00".data, «end» := "09:00".data,
    participants := ["U1".data, "U2".data],
    participant_names := ["A".data, "B".data], confidence := mkRat 67 100 }

/-- The evening interval of `c6input` (all three participants). -/
def c6otB : OptimalTime :=
  { start := "20:00".data, «end» := "22:00".data,
    participants := ["U1".data, "U2".data, "U3".data],
    participant_names := ["A".data, "B".data, "C".data], confidence := 1 }

/-- The full result computed for `c6input`: the three-participant interval
is sorted in front of the two-participant one. -/
def c6res : AggResult :=
  { optimal_times := [c6otB, c6otA], participant_count := 3, response_rate := 1,
    status := "active".data }

/-- Minute value of a time string, defaulting to 0 (only ever read on
strings whose parse succeeds). -/
def minOf (s : Str) : Int := (timeToMinutes s).getD 0

/-- Two disjoint canonical records for the merge-idempotence witness. -/
def c9rec1 : Inter :=
  { start := "09:00".data, «end» := "09:30".data,
    participants := ["U1".data, "U2".data],
    participant_names := ["A".data, "B".data], overlap_minutes := 30 }

/-- Second record, separated from the first by a positive gap. -/
def c9rec2 : Inter :=
  { start := "11:00".data, «end» := "11:45".data,
    participants := ["U2".data, "U3".data],
    participant_names := ["B".data, "C".data], overlap_minutes := 45 }

/-- A record whose two time strings are canonical clock times. -/
def canonRec (r : Inter) : Prop :=
  canonicalTime r.start = true ∧ canonicalTime r.«end» = true

/-- A strictly positive gap between two records, in minutes. -/
def gapMin (a b : Inter) : Prop := minOf a.«end» < minOf b.start

example : timeToMinutes "19:00".data = some 1140 := by decide
example : timeToMinutes "bad".data = none := by decide
example : timeToMinutes "9am".data = none := by decide
example : minutesToTime 1140 = "19:00".data := by decide
example : minutesToTime 65 = "01:05".data := by decide
example : pyStrLt "09:00".data "10:30".data = true := by decide
example : canonicalTime "09:45".data = true := by decide

/-! ## Generic facts about the stable insertion sort -/

theorem insertBy_perm (le : α → α → Bool) (x : α) (l : List α) :
    List.Perm (insertBy le x l) (x :: l) := by
  induction l with
  | nil => simp [insertBy]
  | cons y ys ih =>
    by_cases h : le x y = true
    · simp [insertBy, h]
    · simp only [insertBy, h, Bool.false_eq_true, if_false]
      exact ((ih.cons y).trans (List.Perm.swap x y ys))

theorem insertionSortBy_perm (le : α → α → Bool) (l : List α) :
    List.Perm (insertionSortBy le l) l := by
  induction l with
  | nil => exact List.Perm.refl _
  | cons x xs ih => exact (insertBy_perm le x _).trans (ih.cons x)

theorem mem_insertionSortBy {le : α → α → Bool} {l : List α} {a : α} :
    a ∈ insertionSortBy le l ↔ a ∈ l :=
  (insertionSortBy_perm le l).mem_iff

/-- Sortedness of stable insertion sort, assuming `le` is total and
transitive. -/
theorem pairwise_insertBy {le : α → α → Bool}
    (htot : ∀ a b, le a b = true ∨ le b a = true)
    (htrans : ∀ a b c, le a b = true → le b c = true → le a c = true)
    {l : List α} (x : α) (hl : List.Pairwise (fun a b => le a b = true) l) :
    List.Pairwise (fun a b => le a b = true) (insertBy le x l) := by
  induction l with
  | nil => simp [insertBy]
  | cons y ys ih =>
    rcases List.pairwise_cons.mp hl with ⟨hy, hys⟩
    by_cases h : le x y = true
    · simp only [insertBy, h, if_true]
      refine List.Pairwise.cons ?_ (List.Pairwise.cons hy hys)
      intro b hb
      rcases List.mem_cons.mp hb with rfl | hb
      · exact h
      · exact htrans x y b h (hy _ hb)
    · simp only [insertBy, h, Bool.false_eq_true, if_false]
      refine List.Pairwise.cons ?_ (ih hys)
      intro b hb
      rcases List.mem_cons.mp ((insertBy_perm le x ys).mem_iff.mp hb) with rfl | hb
      · rcases htot y b with hyb | hby
        · exact hyb
        · exact absurd hby h
      · exact hy _ hb

theorem pairwise_insertionSortBy {le : α → α → Bool}
    (htot : ∀ a b, le a b = true ∨ le b a = true)
    (htrans : ∀ a b c, le a b = true → le b c = true → le a c = true)
    (l : List α) :
    List.Pairwise (fun a b => le a b = true) (insertionSortBy le l) := by
  induction l with
  | nil => simp [insertionSortBy]
  | cons x xs ih => exact pairwise_insertBy htot htrans x ih

/-- A list already sorted under `le` is a fixed point of the sort. -/
theorem insertionSortBy_eq_self {le : α → α → Bool} {l : List α}
    (hl : List.Pairwise (fun a b => le a b = true) l) :
    insertionSortBy le l = l := by
  induction l with
  | nil => rfl
  | cons x xs ih =>
    rcases List.pairwise_cons.mp hl with ⟨hx, hxs⟩
    have hrest : insertionSortBy le xs = xs := ih hxs
    show insertBy le x (insertionSortBy le xs) = x :: xs
    rw [hrest]
    cases xs with
    | nil => rfl
    | cons y ys => simp [insertBy, hx y (List.mem_cons_self y ys)]

/-- Stability, phrased through filters: for any predicate `p` that is
constant on `le`-equivalence classes in the strong sense that `p x` and
`p y` force `le x y`, the `p`-filtered subsequence is untouched by sorting. -/
theorem filter_insertBy {le : α → α → Bool} {p : α → Bool}
    (hcl : ∀ a b, p a = true → p b = true → le a b = true)
    (x : α) (l : List α) :
    (insertBy le x l).filter p = (if p x then [x] else []) ++ l.filter p := by
  induction l with
  | nil => cases h : p x <;> simp [insertBy, List.filter, h]
  | cons y ys ih =>
    by_cases h : le x y = true
    · cases hx : p x <;> cases hy : p y <;>
        simp [insertBy, h, List.filter, hx, hy]
    · have hnot : ¬ (p x = true ∧ p y = true) := by
        rintro ⟨hx, hy⟩; exact h (hcl x y hx hy)
      simp only [insertBy, h, Bool.false_eq_true, if_false]
      cases hx : p x with
      | false =>
        cases hy : p y <;> simp_all [List.filter, hx, hy]
      | true =>
        have hy : p y = false := by
          cases hy : p y with
          | false => rfl
          | true => exact absurd ⟨hx, hy⟩ hnot
        simp_all [List.filter, hx, hy]

theorem filter_insertionSortBy {le : α → α → Bool} {p : α → Bool}
    (hcl : ∀ a b, p a = true → p b = true → le a b = true) (l : List α) :
    (insertionSortBy le l).filter p = l.filter p := by
  induction l with
  | nil => rfl
  | cons x xs ih =>
    show (insertBy le x (insertionSortBy le xs)).filter p = _
    rw [filter_insertBy hcl]
    cases h : p x <;> simp [List.filter, h, ih]

/-! ## Claim C1: chain-transitive merging -/



/-- C1: merging the three pairwise records `[A,B]@09:00-10:00`,
`[A,C]@09:30-10:30`, `[B,C]@09:45-11:00` returns exactly one interval
`09:00-11:00` whose participant set is `{A, B, C}`, although no single
input record names all three participants. -/
theorem C1_chain_transitive_merge :
    (∃ merged, mergeIntersections [c1recAB, c1recAC, c1recBC] = some [merged] ∧
      merged.start = "09:00".data ∧ merged.«end» = "11:00".data ∧
      merged.participants.toFinset =
        ({"A".data, "B".data, "C".data} : Finset Str) ∧
      merged.participants.length = 3) ∧
    (c1recAB.participants.length = 2 ∧ c1recAC.participants.length = 2 ∧
      c1recBC.participants.length = 2) := by
  refine ⟨⟨{ start := "09:00".data, «end» := "11:00".data,
             participants := ["A".data, "B".data, "C".data],
             participant_names := ["nameA".data, "nameB".data, "nameC".data],
             overlap_minutes := 60 }, ?_, ?_, ?_, ?_, ?_⟩, ?_, ?_, ?_⟩ <;> decide

/-! ## Claim C3: a malformed time string aborts the whole aggregation -/



/-- C3 (code behaviour at the failing input): with one malformed slot
present, `aggregate` does not produce a result at all — the uncaught
`ValueError` from `int("morning")` aborts the whole run (modelled by
`none`), instead of the claimed "this interval contributes no overlaps"
recovery.  The well-formed `U2` entry gets no result either. -/
theorem C3_malformed_time_aborts_aggregate :
    aggregate { validated_entries := some [c3badEntry, c3goodEntry] } = none ∧
    timeToMinutes "morning".data = none := by decide

/-! ## Claim C4: empty-input short-circuit -/

/-- C4: with an empty `validated_entries` list, and likewise with no
`validated_entries` key at all, `aggregate` returns exactly
`{optimal_times: [], participant_count: 0, response_rate: 0.0,
status: "active"}`. -/
theorem C4_empty_input_short_circuit :
    aggregate { validated_entries := some [] } =
      some { optimal_times := [], participant_count := 0, response_rate := 0,
             status := "active".data } ∧
    aggregate { validated_entries := none } =
      some { optimal_times := [], participant_count := 0, response_rate := 0,
             status := "active".data } := by decide

/-! ## Claim C8: time-codec round trip -/

set_option maxHeartbeats 4000000 in
set_option maxRecDepth 10000 in
theorem roundtripHM : ∀ h : Nat, h < 24 → ∀ mm : Nat, mm < 60 →
    (timeToMinutes (minutesToTime ((60 * h + mm : Nat) : Int)) =
        some ((60 * h + mm : Nat) : Int) ∧
      isHHMMShape (minutesToTime ((60 * h + mm : Nat) : Int)) = true) := by
  decide

/-- C8: for every minute count `0 ≤ m < 1440`,
`_time_to_minutes (_minutes_to_time m) = m`, and `_minutes_to_time m` is a
zero-padded `HH:MM` string (two digit characters, a colon, two digit
characters). -/
theorem C8_time_codec_roundtrip (m : Nat) (h : m < 1440) :
    timeToMinutes (minutesToTime (m : Int)) = some (m : Int) ∧
      isHHMMShape (minutesToTime (m : Int)) = true := by
  have h1 : m / 60 < 24 := by omega
  have h2 : m % 60 < 60 := by omega
  have h3 : 60 * (m / 60) + m % 60 = m := by omega
  have hr := roundtripHM (m / 60) h1 (m % 60) h2
  rwa [h3] at hr

/-! ## Claim C2: pairwise threshold enforcement -/

/-- Anatomy of an emitted pairwise record: its window is nonempty, meets the
30-minute threshold, and its string fields are the rendered window bounds. -/
theorem pairOverlap_eq_some {slot1 slot2 : TimeSlot} {r : Inter}
    (h : pairOverlap slot1 slot2 = some r) :
    ∃ os oe : Int,
      os = max slot1.start_min slot2.start_min ∧
      oe = min slot1.end_min slot2.end_min ∧
      os < oe ∧ 30 ≤ oe - os ∧ oe - os = r.overlap_minutes ∧
      r.start = minutesToTime os ∧ r.«end» = minutesToTime oe ∧
      r.participants = [slot1.user_id, slot2.user_id].dedup ∧
      r.participant_names = [slot1.user_name, slot2.user_name] := by
  simp only [pairOverlap] at h
  split_ifs at h with h1 h2
  · refine ⟨max slot1.start_min slot2.start_min, min slot1.end_min slot2.end_min,
      rfl, rfl, h1, h2, ?_⟩
    cases h
    simp

/-- Every record of `findIntersections` comes from one ordered pair of
slots with distinct owners. -/
theorem mem_findIntersections {ts : List TimeSlot} {r : Inter}
    (hr : r ∈ findIntersections ts) :
    ∃ slot1 ∈ ts, ∃ slot2 ∈ ts,
      slot1.user_id ≠ slot2.user_id ∧ pairOverlap slot1 slot2 = some r := by
  induction ts with
  | nil => cases hr
  | cons slot1 rest ih =>
    rcases List.mem_append.mp hr with h | h
    · obtain ⟨slot2, hs2, hpair⟩ := List.mem_filterMap.mp h
      by_cases huser : slot1.user_id = slot2.user_id
      · rw [if_pos huser] at hpair; cases hpair
      · rw [if_neg huser] at hpair
        exact ⟨slot1, List.mem_cons_self _ _,
          slot2, List.mem_cons_of_mem _ hs2, huser, hpair⟩
    · obtain ⟨s1, hs1, s2, hs2, hne, hp⟩ := ih h
      exact ⟨s1, List.mem_cons_of_mem _ hs1,
        s2, List.mem_cons_of_mem _ hs2, hne, hp⟩

/-- C2: for two converted slots, a pairwise record is emitted if and only if
`min(end1, end2) - max(start1, start2)` is strictly positive and at least
30 minutes (so a 29-minute overlap is dropped and a 30-minute overlap is
kept), and every record emitted by the pairwise stage has `start < end`
with a duration of at least 30 minutes. -/
theorem C2_threshold_enforcement (slot1 slot2 : TimeSlot)
    (ts : List TimeSlot) (r : Inter) :
    ((pairOverlap slot1 slot2).isSome ↔
      (0 < min slot1.end_min slot2.end_min - max slot1.start_min slot2.start_min ∧
        30 ≤ min slot1.end_min slot2.end_min - max slot1.start_min slot2.start_min)) ∧
    (r ∈ findIntersections ts →
      30 ≤ r.overlap_minutes ∧
      ∃ os oe : Int, os < oe ∧ oe - os = r.overlap_minutes ∧
        r.start = minutesToTime os ∧ r.«end» = minutesToTime oe) := by
  constructor
  · simp only [pairOverlap]
    split_ifs with h1 h2
    · simp only [Option.isSome_some, true_iff]
      constructor
      · omega
      · exact h2
    · simp only [Option.isSome_none, Bool.false_eq_true, false_iff, not_and, not_le]
      intro _
      simp only [min_overlap_minutes] at h2
      omega
    · simp only [Option.isSome_none, Bool.false_eq_true, false_iff, not_and, not_le]
      omega
  · intro hr
    obtain ⟨s1, _, s2, _, _, hp⟩ := mem_findIntersections hr
    obtain ⟨os, oe, _, _, hlt, hge, hdur, hs, he, _, _⟩ := pairOverlap_eq_some hp
    exact ⟨hdur ▸ hge, os, oe, hlt, hdur, hs, he⟩



theorem C2_threshold_enforcement_witness :
    30 ≤ c2rec.overlap_minutes ∧
    ∃ os oe : Int, os < oe ∧ oe - os = c2rec.overlap_minutes ∧
      c2rec.start = minutesToTime os ∧ c2rec.«end» = minutesToTime oe :=
  (C2_threshold_enforcement c2slot1 c2slot2 [c2slot1, c2slot2] c2rec).2 (by decide)

/-! ## Claim C10: the QC stage partitions messages -/

/-- The status test of `_validate_single_entry`, isolated. -/
theorem status_iff_core (fl : List Str) (cs : List Slot) :
    ((if fl.isEmpty && !cs.isEmpty then "valid".data else "flagged".data) =
        "valid".data) ↔ (fl = [] ∧ cs ≠ []) := by
  by_cases h : (fl.isEmpty && !cs.isEmpty) = true
  · rw [if_pos h]
    simp only [Bool.and_eq_true, List.isEmpty_iff, Bool.not_eq_true',
      List.isEmpty_eq_false] at h
    simpa using h
  · rw [if_neg h]
    simp only [Bool.and_eq_true, List.isEmpty_iff, Bool.not_eq_true',
      List.isEmpty_eq_false, not_and] at h ⊢
    constructor
    · intro hf
      exact absurd hf (by decide)
    · intro ⟨h1, h2⟩
      exact absurd h2 (h h1)

/-- An entry is reported valid exactly when it accumulated no flags and at
least one clean slot. -/
theorem validateSingleEntry_status_iff (msg : Msg) :
    (validateSingleEntry msg).status = "valid".data ↔
      ((validateSingleEntry msg).flags = [] ∧
        (validateSingleEntry msg).clean_slots ≠ []) := by
  unfold validateSingleEntry
  dsimp only
  exact status_iff_core _ _

/-- C10: `validate_entries` places each message in exactly one of
`validated_entries` and `flagged_entries`; an entry is validated exactly
when it accumulated no flags and has at least one clean slot; consequently
every validated entry has status `"valid"`, an empty flag list and a
nonempty `clean_slots` list. -/
theorem C10_qc_partition (data : QCData) (e : QCEntry) (msg : Msg) :
    ((validateEntries data).validated_entries.length +
        (validateEntries data).flagged_entries.length = data.messages.length) ∧
    (e ∈ (validateEntries data).validated_entries →
      e ∉ (validateEntries data).flagged_entries) ∧
    ((validateSingleEntry msg).status = "valid".data ↔
      ((validateSingleEntry msg).flags = [] ∧
        (validateSingleEntry msg).clean_slots ≠ [])) ∧
    (e ∈ (validateEntries data).validated_entries →
      e.status = "valid".data ∧ e.flags = [] ∧ e.clean_slots ≠ []) := by
  refine ⟨?_, ?_, validateSingleEntry_status_iff msg, ?_⟩
  · unfold validateEntries
    dsimp only
    have h := List.length_eq_length_filter_add (l := data.messages.map validateSingleEntry)
      (fun e => decide (e.status = "valid".data))
    have hc : List.filter (fun e => decide ¬ e.status = "valid".data)
          (data.messages.map validateSingleEntry) =
        List.filter (fun x => !(decide (x.status = "valid".data)))
          (data.messages.map validateSingleEntry) := by
      apply List.filter_congr
      intro x _
      simp
    rw [List.length_map] at h
    rw [hc]
    have hv : ("valid".data : Str) = ['v', 'a', 'l', 'i', 'd'] := rfl
    simp only [hv] at h ⊢
    omega
  · intro hv hf
    unfold validateEntries at hv hf
    dsimp only at hv hf
    have h1 := (List.mem_filter.mp hv).2
    have h2 := (List.mem_filter.mp hf).2
    simp only [decide_eq_true_eq, decide_not, Bool.not_eq_true',
      decide_eq_false_iff_not] at h1 h2
    exact h2 h1
  · intro hv
    unfold validateEntries at hv
    dsimp only at hv
    rcases List.mem_filter.mp hv with ⟨hmem, hst⟩
    simp only [decide_eq_true_eq] at hst
    obtain ⟨msg', _, rfl⟩ := List.mem_map.mp hmem
    exact ⟨hst, (validateSingleEntry_status_iff msg').mp hst⟩



theorem C10_qc_partition_witness :
    (c10entry ∉ (validateEntries { messages := [c10msg] }).flagged_entries) ∧
    (c10entry.status = "valid".data ∧ c10entry.flags = [] ∧
      c10entry.clean_slots ≠ []) :=
  ⟨(C10_qc_partition { messages := [c10msg] } c10entry c10msg).2.1 (by decide),
   (C10_qc_partition { messages := [c10msg] } c10entry c10msg).2.2.2 (by decide)⟩

theorem C8_time_codec_roundtrip_witness :
    (540 : Nat) < 1440 ∧
      (timeToMinutes (minutesToTime ((540 : Nat) : Int)) =
          some ((540 : Nat) : Int) ∧
        isHHMMShape (minutesToTime ((540 : Nat) : Int)) = true) :=
  ⟨by decide, C8_time_codec_roundtrip 540 (by decide)⟩

/-! ## Claim C5: confidence correctness and bounds -/

theorem toFinset_dedup [DecidableEq α] (l : List α) :
    l.dedup.toFinset = l.toFinset := by
  ext a
  simp [List.mem_toFinset, List.mem_dedup]

theorem roundHalfEven_bounds {a b : Int} (ha : 0 ≤ a) (hb : 0 < b)
    (hab : a ≤ 100 * b) :
    0 ≤ roundHalfEven a b ∧ roundHalfEven a b ≤ 100 := by
  have key : b * (a / b) + a % b = a := Int.ediv_add_emod a b
  have hrem0 : 0 ≤ a % b := Int.emod_nonneg a hb.ne'
  have hremb : a % b < b := Int.emod_lt_of_pos a hb
  have hn0 : 0 ≤ a / b := Int.ediv_nonneg ha hb.le
  have hn100 : a / b ≤ 100 := by
    by_contra hcon
    push_neg at hcon
    have h1 : b * 101 ≤ b * (a / b) :=
      mul_le_mul_of_nonneg_left (by omega) hb.le
    linarith
  have hstrict : 0 < a % b → a / b ≤ 99 := by
    intro hr
    by_contra hcon
    push_neg at hcon
    have h1 : b * 100 ≤ b * (a / b) :=
      mul_le_mul_of_nonneg_left (by omega) hb.le
    linarith
  unfold roundHalfEven
  split_ifs with h1 h2 h3
  · exact ⟨hn0, hn100⟩
  · have := hstrict (by linarith)
    constructor <;> linarith
  · exact ⟨hn0, hn100⟩
  · have := hstrict (by omega)
    constructor <;> linarith

theorem pyRound2_bounds {q : ℚ} (h0 : 0 ≤ q) (h1 : q ≤ 1) :
    0 ≤ pyRound2 q ∧ pyRound2 q ≤ 1 := by
  have hbpos : (0 : Int) < (q.den : Int) := by exact_mod_cast q.den_pos
  have ha0 : (0 : Int) ≤ q.num * 100 := by
    have := Rat.num_nonneg.mpr h0
    nlinarith
  have hab : q.num * 100 ≤ 100 * (q.den : Int) := by
    have hnum_le : q.num ≤ (q.den : Int) := by
      rw [Rat.le_def] at h1
      simpa using h1
    linarith
  obtain ⟨hl, hr⟩ := roundHalfEven_bounds ha0 hbpos hab
  unfold pyRound2
  rw [Rat.mkRat_eq_div]
  constructor
  · apply div_nonneg _ (by norm_num)
    exact_mod_cast hl
  · rw [div_le_one (by norm_num)]
    exact_mod_cast hr

/-- Field content of a successful slot conversion. -/
theorem toTimeSlot_eq_some {s : FlatSlot} {t : TimeSlot}
    (h : toTimeSlot s = some t) :
    t.user_id = s.user_id ∧ t.user_name = s.user_name := by
  simp only [toTimeSlot, Option.pure_def] at h
  rcases Option.bind_eq_some.mp h with ⟨sm, hsm, h⟩
  rcases Option.bind_eq_some.mp h with ⟨em, hem, h⟩
  cases h
  exact ⟨rfl, rfl⟩

/-- Successful conversion pairs every time slot with a flat slot carrying
the same owner id and display name. -/
theorem convertSlots_mem {slots : List FlatSlot} :
    ∀ {ts : List TimeSlot}, convertSlots slots = some ts →
      ∀ t ∈ ts, ∃ s ∈ slots, t.user_id = s.user_id ∧ t.user_name = s.user_name := by
  induction slots with
  | nil =>
    intro ts h t ht
    simp only [convertSlots] at h
    cases h
    cases ht
  | cons s rest ih =>
    intro ts h t ht
    simp only [convertSlots, Option.pure_def] at h
    rcases Option.bind_eq_some.mp h with ⟨t0, ht0, h⟩
    rcases Option.bind_eq_some.mp h with ⟨ts0, hts0, h⟩
    cases h
    rcases List.mem_cons.mp ht with rfl | ht
    · exact ⟨s, List.mem_cons_self _ _, toTimeSlot_eq_some ht0⟩
    · obtain ⟨s0, hs0, hids⟩ := ih hts0 t ht
      exact ⟨s0, List.mem_cons_of_mem _ hs0, hids⟩

/-- Conversion preserves the owner-id list. -/
theorem convertSlots_user_id {slots : List FlatSlot} :
    ∀ {ts : List TimeSlot}, convertSlots slots = some ts →
      ts.map (·.user_id) = slots.map (·.user_id) := by
  induction slots with
  | nil =>
    intro ts h
    simp only [convertSlots] at h
    cases h
    rfl
  | cons s rest ih =>
    intro ts h
    simp only [convertSlots, Option.pure_def] at h
    rcases Option.bind_eq_some.mp h with ⟨t0, ht0, h⟩
    rcases Option.bind_eq_some.mp h with ⟨ts0, hts0, h⟩
    cases h
    simp only [List.map_cons]
    rw [ih hts0, (toTimeSlot_eq_some ht0).1]

/-- Every pairwise record has a duplicate-free participant list drawn from
the slot owners. -/
theorem findIntersections_WF {ts : List TimeSlot} {r : Inter}
    (hr : r ∈ findIntersections ts) : interWF (ts.map (·.user_id)) r := by
  obtain ⟨s1, h1, s2, h2, hne, hp⟩ := mem_findIntersections hr
  obtain ⟨os, oe, -, -, -, -, -, -, -, hparts, -⟩ := pairOverlap_eq_some hp
  constructor
  · rw [hparts]
    exact List.nodup_dedup _
  · intro u hu
    rw [hparts] at hu
    have hu2 := List.mem_dedup.mp hu
    simp only [List.mem_cons, List.not_mem_nil, or_false] at hu2
    rcases hu2 with rfl | rfl
    · exact List.mem_map.mpr ⟨s1, h1, rfl⟩
    · exact List.mem_map.mpr ⟨s2, h2, rfl⟩

/-- The merge sweep preserves any per-record property that is stable under
the in-place merge of two records. -/
theorem mergeLoop_preserves {P : Inter → Prop}
    (hmerge : ∀ last inter : Inter, ∀ e : Str, P last → P inter →
      P (mergeRecords last inter e))
    {l : List Inter} :
    ∀ {acc out : List Inter},
      (∀ r ∈ acc, P r) → (∀ r ∈ l, P r) →
      mergeLoop acc l = some out → ∀ r ∈ out, P r := by
  induction l with
  | nil =>
    intro acc out ha _ h r hr
    simp only [mergeLoop] at h
    cases h
    exact ha r (List.mem_reverse.mp hr)
  | cons inter rest ih =>
    intro acc out ha hl h
    have hinter : P inter := hl inter (List.mem_cons_self _ _)
    have hrest : ∀ r ∈ rest, P r :=
      fun r hr => hl r (List.mem_cons_of_mem _ hr)
    match acc with
    | [] =>
      simp only [mergeLoop] at h
      exact ih (fun r hr => (List.mem_singleton.mp hr) ▸ hinter) hrest h
    | last :: accTail =>
      have hlast : P last := ha last (List.mem_cons_self _ _)
      have htail : ∀ r ∈ accTail, P r :=
        fun r hr => ha r (List.mem_cons_of_mem _ hr)
      simp only [mergeLoop] at h
      rcases Option.bind_eq_some.mp h with ⟨lem, hle, h⟩
      rcases Option.bind_eq_some.mp h with ⟨ism, his, h⟩
      split_ifs at h with hcmp
      · rcases Option.bind_eq_some.mp h with ⟨iem, hie, h⟩
        refine ih ?_ hrest h
        intro r hr
        rcases List.mem_cons.mp hr with rfl | hr
        · exact hmerge last inter _ hlast hinter
        · exact htail r hr
      · refine ih ?_ hrest h
        intro r hr
        rcases List.mem_cons.mp hr with rfl | hr
        · exact hinter
        · rcases List.mem_cons.mp hr with rfl | hr
          · exact hlast
          · exact htail r hr

/-- The merge step preserves any merge-stable per-record property. -/
theorem mergeIntersections_preserves {P : Inter → Prop}
    (hmerge : ∀ last inter : Inter, ∀ e : Str, P last → P inter →
      P (mergeRecords last inter e))
    {xs ys : List Inter}
    (hx : ∀ r ∈ xs, P r) (h : mergeIntersections xs = some ys) :
    ∀ r ∈ ys, P r := by
  unfold mergeIntersections at h
  split_ifs at h with he
  · cases h
    intro r hr
    cases hr
  · exact mergeLoop_preserves hmerge (fun r hr => absurd hr (List.not_mem_nil r))
      (fun r hr => hx r (mem_insertionSortBy.mp hr)) h

/-- The merge step preserves participant-list well-formedness. -/
theorem mergeIntersections_WF {xs ys : List Inter} {owners : List Str}
    (hx : ∀ r ∈ xs, interWF owners r) (h : mergeIntersections xs = some ys) :
    ∀ r ∈ ys, interWF owners r := by
  refine mergeIntersections_preserves ?_ hx h
  intro last inter e h1 h2
  constructor
  · exact List.nodup_dedup _
  · intro u hu
    rcases List.mem_append.mp (List.mem_dedup.mp hu) with hu | hu
    · exact h1.2 u hu
    · exact h2.2 u hu

/-- Every flattened slot is owned by one of the validated entries. -/
theorem allSlotsOf_user_id {v : List AggEntry} {s : FlatSlot}
    (hs : s ∈ allSlotsOf v) : s.user_id ∈ v.map (·.user_id) := by
  unfold allSlotsOf at hs
  rcases List.mem_flatMap.mp hs with ⟨entry, he, hmem⟩
  rcases List.mem_map.mp hmem with ⟨slot, -, rfl⟩
  exact List.mem_map.mpr ⟨entry, he, rfl⟩

/-- Shape of every optimal time produced by `_find_optimal_overlaps`:
duplicate-free participants drawn from the slot owners, and a confidence
that is the rounded ratio of its participant count to the roster size. -/
theorem findOptimalOverlaps_shape {slots : List FlatSlot} {aps : List Str}
    {out : List OptimalTime} (h : findOptimalOverlaps slots aps = some out)
    {ot : OptimalTime} (hot : ot ∈ out) :
    ot.participants.Nodup ∧ (∀ u ∈ ot.participants, u ∈ slots.map (·.user_id)) ∧
      ot.confidence = pyRound2
        (if 0 < aps.length then mkRat (ot.participants.length : Int) aps.length
         else 0) := by
  unfold findOptimalOverlaps at h
  split_ifs at h with hemp
  · cases h
    cases hot
  · simp only [Option.pure_def] at h
    rcases Option.bind_eq_some.mp h with ⟨ts, hts, h⟩
    rcases Option.bind_eq_some.mp h with ⟨merged, hm, h⟩
    cases h
    obtain ⟨ms, hms, rfl⟩ := List.mem_map.mp hot
    have hWF := mergeIntersections_WF (fun r hr => findIntersections_WF hr) hm ms hms
    rw [convertSlots_user_id hts] at hWF
    exact ⟨hWF.1, hWF.2, rfl⟩

/-- C5: on a non-empty roster, each optimal time's confidence is
`round(|participants| / participant_count, 2)` with `participant_count` the
full roster size, and it lies in `[0, 1]`. -/
theorem C5_confidence (input : AggInput) (res : AggResult) (ot : OptimalTime)
    (hres : aggregate input = some res) (hot : ot ∈ res.optimal_times) :
    res.participant_count =
      (participantIdsOf (input.validated_entries.getD [])).length ∧
    ot.confidence =
      pyRound2 ((ot.participants.length : ℚ) / (res.participant_count : ℚ)) ∧
    0 ≤ ot.confidence ∧ ot.confidence ≤ 1 := by
  simp only [aggregate, Option.pure_def] at hres
  by_cases hemp : (input.validated_entries.getD []).length = 0
  · rw [if_pos hemp] at hres
    cases hres
    cases hot
  · rw [if_neg hemp] at hres
    rcases Option.bind_eq_some.mp hres with ⟨found, hfound, hres⟩
    cases hres
    have hotf : ot ∈ insertionSortBy (fun x y => otKeyLe y x) found := hot
    have hotf : ot ∈ found := mem_insertionSortBy.mp hotf
    simp only [preSortTimes] at hfound
    obtain ⟨hnodup, hsub, hconf⟩ := findOptimalOverlaps_shape hfound hotf
    set v := input.validated_entries.getD [] with hv
    have hpos : 0 < (participantIdsOf v).length := by
      rw [List.length_pos]
      intro hnil
      unfold participantIdsOf at hnil
      rw [List.dedup_eq_nil, List.map_eq_nil_iff] at hnil
      exact hemp (by rw [hnil]; rfl)
    have hsub2 : ∀ u ∈ ot.participants, u ∈ participantIdsOf v := by
      intro u hu
      have := hsub u hu
      rcases List.mem_map.mp this with ⟨s, hs, rfl⟩
      exact List.mem_dedup.mpr (allSlotsOf_user_id hs)
    have hk : ot.participants.length ≤ (participantIdsOf v).length := by
      have h1 : ot.participants.toFinset.card = ot.participants.length :=
        List.toFinset_card_of_nodup hnodup
      have h2 : ot.participants.toFinset ⊆ (participantIdsOf v).toFinset :=
        fun u hu => List.mem_toFinset.mpr (hsub2 u (List.mem_toFinset.mp hu))
      calc ot.participants.length = ot.participants.toFinset.card := h1.symm
        _ ≤ (participantIdsOf v).toFinset.card := Finset.card_le_card h2
        _ ≤ (participantIdsOf v).length := List.toFinset_card_le _
    rw [if_pos hpos] at hconf
    have hq0 : 0 ≤ mkRat (ot.participants.length : Int) (participantIdsOf v).length := by
      rw [Rat.mkRat_eq_div]
      positivity
    have hq1 : mkRat (ot.participants.length : Int) (participantIdsOf v).length ≤ 1 := by
      rw [Rat.mkRat_eq_div, div_le_one (by exact_mod_cast hpos)]
      exact_mod_cast hk
    obtain ⟨hb0, hb1⟩ := pyRound2_bounds hq0 hq1
    refine ⟨rfl, ?_, hconf ▸ hb0, hconf ▸ hb1⟩
    rw [hconf, Rat.mkRat_eq_div]
    norm_num

theorem C5_confidence_witness :
    c5res.participant_count =
      (participantIdsOf (c5input.validated_entries.getD [])).length ∧
    c5ot.confidence =
      pyRound2 ((c5ot.participants.length : ℚ) / (c5res.participant_count : ℚ)) ∧
    0 ≤ c5ot.confidence ∧ c5ot.confidence ≤ 1 :=
  C5_confidence c5input c5res c5ot (by decide) (by decide)

/-! ## Claim C7: participant-name cardinality -/

/-- Under a consistent id-name association, `nameOf` reads off each slot's
display name. -/
theorem nameOf_eq {slots : List FlatSlot}
    (hsc : ∀ s1 ∈ slots, ∀ s2 ∈ slots,
      (s1.user_id = s2.user_id ↔ s1.user_name = s2.user_name))
    {s : FlatSlot} (hs : s ∈ slots) : nameOf slots s.user_id = s.user_name := by
  unfold nameOf
  cases hf : slots.find? (fun s0 => s0.user_id == s.user_id) with
  | none =>
    exfalso
    have := List.find?_eq_none.mp hf s hs
    simp at this
  | some s0 =>
    have hmem := List.mem_of_find?_eq_some hf
    have hpred := List.find?_some hf
    simp only [beq_iff_eq] at hpred
    simp only [Option.map_some', Option.getD_some]
    exact (hsc s0 hmem s hs).mp hpred

/-- Every pairwise record has `interNW` under a name map agreeing with the
slots and injective on their ids. -/
theorem findIntersections_NW {ts : List TimeSlot} {nm : Str → Str}
    (hagree : ∀ t ∈ ts, t.user_name = nm t.user_id)
    (hinj : ∀ t1 ∈ ts, ∀ t2 ∈ ts,
      nm t1.user_id = nm t2.user_id → t1.user_id = t2.user_id)
    {r : Inter} (hr : r ∈ findIntersections ts) : interNW nm r := by
  obtain ⟨s1, h1, s2, h2, hne, hp⟩ := mem_findIntersections hr
  obtain ⟨os, oe, -, -, -, -, -, -, -, hparts, hnames⟩ := pairOverlap_eq_some hp
  have hn1 : s1.user_name = nm s1.user_id := hagree s1 h1
  have hn2 : s2.user_name = nm s2.user_id := hagree s2 h2
  constructor
  · rw [hnames]
    refine List.nodup_cons.mpr ⟨?_, List.nodup_singleton _⟩
    rw [List.mem_singleton]
    intro heq
    exact hne (hinj s1 h1 s2 h2 (by rw [← hn1, ← hn2, heq]))
  · rw [hnames, hparts, toFinset_dedup]
    simp only [List.toFinset_cons, List.toFinset_nil,
      insert_emptyc_eq, Finset.image_insert, Finset.image_singleton]
    rw [hn1, hn2]

/-- The merge step preserves `interNW`. -/
theorem mergeIntersections_NW {nm : Str → Str} {xs ys : List Inter}
    (hx : ∀ r ∈ xs, interNW nm r) (h : mergeIntersections xs = some ys) :
    ∀ r ∈ ys, interNW nm r := by
  refine mergeIntersections_preserves ?_ hx h
  intro last inter e h1 h2
  constructor
  · exact List.nodup_dedup _
  · show ((last.participant_names ++ inter.participant_names).dedup).toFinset =
      ((last.participants ++ inter.participants).dedup).toFinset.image nm
    rw [toFinset_dedup, toFinset_dedup, List.toFinset_append,
      List.toFinset_append, Finset.image_union, h1.2, h2.2]

/-- Every flattened slot carries its entry's id and display name. -/
theorem allSlotsOf_fields {v : List AggEntry} {s : FlatSlot}
    (hs : s ∈ allSlotsOf v) :
    ∃ e ∈ v, s.user_id = e.user_id ∧ s.user_name = entryName e := by
  unfold allSlotsOf at hs
  rcases List.mem_flatMap.mp hs with ⟨entry, he, hmem⟩
  rcases List.mem_map.mp hmem with ⟨slot, -, rfl⟩
  exact ⟨entry, he, rfl, rfl⟩

/-- When the id-name association over the slots is consistent and injective,
every produced optimal time has exactly as many names as participant ids. -/
theorem findOptimalOverlaps_names {slots : List FlatSlot} {aps : List Str}
    {out : List OptimalTime} (h : findOptimalOverlaps slots aps = some out)
    (hsc : ∀ s1 ∈ slots, ∀ s2 ∈ slots,
      (s1.user_id = s2.user_id ↔ s1.user_name = s2.user_name))
    {ot : OptimalTime} (hot : ot ∈ out) :
    ot.participant_names.length = ot.participants.length := by
  unfold findOptimalOverlaps at h
  split_ifs at h with hemp
  · cases h
    cases hot
  · simp only [Option.pure_def] at h
    rcases Option.bind_eq_some.mp h with ⟨ts, hts, h⟩
    rcases Option.bind_eq_some.mp h with ⟨merged, hm, h⟩
    cases h
    obtain ⟨ms, hms, rfl⟩ := List.mem_map.mp hot
    have hagree : ∀ t ∈ ts, t.user_name = nameOf slots t.user_id := by
      intro t ht
      obtain ⟨s, hs, hid, hname⟩ := convertSlots_mem hts t ht
      rw [hid, hname]
      exact (nameOf_eq hsc hs).symm
    have hinjT : ∀ t1 ∈ ts, ∀ t2 ∈ ts,
        nameOf slots t1.user_id = nameOf slots t2.user_id →
          t1.user_id = t2.user_id := by
      intro t1 ht1 t2 ht2 heq
      obtain ⟨s1, hs1, hid1, hn1⟩ := convertSlots_mem hts t1 ht1
      obtain ⟨s2, hs2, hid2, hn2⟩ := convertSlots_mem hts t2 ht2
      rw [hid1, hid2] at heq ⊢
      rw [nameOf_eq hsc hs1, nameOf_eq hsc hs2] at heq
      exact (hsc s1 hs1 s2 hs2).mpr heq
    have hNW := mergeIntersections_NW
      (fun r hr => findIntersections_NW hagree hinjT hr) hm ms hms
    have hWF := mergeIntersections_WF
      (fun r hr => findIntersections_WF hr) hm ms hms
    show ms.participant_names.length = ms.participants.length
    have hinjOn : Set.InjOn (nameOf slots) ↑(ms.participants.toFinset) := by
      intro u1 hu1 u2 hu2 heq
      have hu1m := (hWF.2 u1 (List.mem_toFinset.mp hu1))
      have hu2m := (hWF.2 u2 (List.mem_toFinset.mp hu2))
      obtain ⟨t1, ht1, rfl⟩ := List.mem_map.mp hu1m
      obtain ⟨t2, ht2, rfl⟩ := List.mem_map.mp hu2m
      exact hinjT t1 ht1 t2 ht2 heq
    calc ms.participant_names.length
        = ms.participant_names.toFinset.card :=
          (List.toFinset_card_of_nodup hNW.1).symm
      _ = (ms.participants.toFinset.image (nameOf slots)).card := by rw [hNW.2]
      _ = ms.participants.toFinset.card := Finset.card_image_of_injOn hinjOn
      _ = ms.participants.length := List.toFinset_card_of_nodup hWF.1

/-- C7 as stated is false on the code: with two of three participants
sharing the display name `X`, the merged interval carries 3 participant ids
but only 2 names (the merge step unions names as a set). -/
theorem C7_name_cardinality_cex :
    aggregate c7input = some c7res ∧ c7ot ∈ c7res.optimal_times ∧
      c7ot.participants.length = 3 ∧ c7ot.participant_names.length = 2 ∧
      c7ot.participant_names.length ≠ c7ot.participants.length := by
  refine ⟨?_, ?_, ?_, ?_, ?_⟩ <;> decide

/-- C7, amended: provided distinct participant ids carry distinct display
names and equal ids carry equal names (names and ids determine each other
across the validated entries), every optimal time's `participant_names` has
the same cardinality as its `participants`. -/
theorem C7_name_cardinality (input : AggInput) (res : AggResult)
    (ot : OptimalTime)
    (hname : ∀ e1 ∈ input.validated_entries.getD [],
      ∀ e2 ∈ input.validated_entries.getD [],
        (entryName e1 = entryName e2 ↔ e1.user_id = e2.user_id))
    (hres : aggregate input = some res) (hot : ot ∈ res.optimal_times) :
    ot.participant_names.length = ot.participants.length := by
  simp only [aggregate, Option.pure_def] at hres
  by_cases hemp : (input.validated_entries.getD []).length = 0
  · rw [if_pos hemp] at hres
    cases hres
    cases hot
  · rw [if_neg hemp] at hres
    rcases Option.bind_eq_some.mp hres with ⟨found, hfound, hres⟩
    cases hres
    have hotf : ot ∈ insertionSortBy (fun x y => otKeyLe y x) found := hot
    have hotf : ot ∈ found := mem_insertionSortBy.mp hotf
    simp only [preSortTimes] at hfound
    have hsc : ∀ s1 ∈ allSlotsOf (input.validated_entries.getD []),
        ∀ s2 ∈ allSlotsOf (input.validated_entries.getD []),
          (s1.user_id = s2.user_id ↔ s1.user_name = s2.user_name) := by
      intro s1 h1 s2 h2
      obtain ⟨e1, he1, hid1, hn1⟩ := allSlotsOf_fields h1
      obtain ⟨e2, he2, hid2, hn2⟩ := allSlotsOf_fields h2
      rw [hid1, hid2, hn1, hn2]
      exact (hname e1 he1 e2 he2).symm
    exact findOptimalOverlaps_names hfound hsc hotf

theorem C7_name_cardinality_witness :
    c7wot.participant_names.length = c7wot.participants.length :=
  C7_name_cardinality c7winput c7wres c7wot (by decide) (by decide) (by decide)

/-! ## Claim C6: result ordering and stability -/

theorem otKeyLe_total (x y : OptimalTime) :
    otKeyLe x y = true ∨ otKeyLe y x = true := by
  simp only [otKeyLe, Bool.or_eq_true, Bool.and_eq_true, decide_eq_true_eq]
  rcases Nat.lt_trichotomy x.participants.length y.participants.length with h | h | h
  · exact Or.inl (Or.inl h)
  · rcases le_total x.confidence y.confidence with hc | hc
    · exact Or.inl (Or.inr ⟨h, hc⟩)
    · exact Or.inr (Or.inr ⟨h.symm, hc⟩)
  · exact Or.inr (Or.inl h)

theorem otKeyLe_trans (x y z : OptimalTime) :
    otKeyLe x y = true → otKeyLe y z = true → otKeyLe x z = true := by
  simp only [otKeyLe, Bool.or_eq_true, Bool.and_eq_true, decide_eq_true_eq]
  rintro (h1 | ⟨h1, h1c⟩) (h2 | ⟨h2, h2c⟩)
  · exact Or.inl (h1.trans h2)
  · exact Or.inl (h2 ▸ h1)
  · exact Or.inl (h1 ▸ h2)
  · exact Or.inr ⟨h1.trans h2, le_trans h1c h2c⟩

theorem otKeyLe_of_key_eq {a b : OptimalTime} (h : otKey a = otKey b) :
    otKeyLe a b = true := by
  simp only [otKey, Prod.mk.injEq] at h
  simp only [otKeyLe, Bool.or_eq_true, Bool.and_eq_true, decide_eq_true_eq]
  exact Or.inr ⟨h.1, le_of_eq h.2⟩

/-- C6: the returned `optimal_times` list is the stable descending sort of
the pre-sort sweep output by `(len(participants), confidence)`: it is
pairwise sorted under that descending key, it equals the stable sort of the
sweep output, and entries with any equal key keep the sweep's relative
order (their filtered subsequence is untouched). -/
theorem C6_result_ordering (input : AggInput) (res : AggResult)
    (hres : aggregate input = some res) :
    List.Pairwise (fun a b => otKeyLe b a = true) res.optimal_times ∧
    ∀ found, preSortTimes input = some found →
      res.optimal_times = insertionSortBy (fun x y => otKeyLe y x) found ∧
      ∀ k : Nat × ℚ,
        res.optimal_times.filter (fun x => decide (otKey x = k)) =
          found.filter (fun x => decide (otKey x = k)) := by
  have htot : ∀ a b : OptimalTime, otKeyLe b a = true ∨ otKeyLe a b = true :=
    fun a b => otKeyLe_total b a
  have htrans : ∀ a b c : OptimalTime,
      otKeyLe b a = true → otKeyLe c b = true → otKeyLe c a = true :=
    fun a b c h1 h2 => otKeyLe_trans c b a h2 h1
  simp only [aggregate, Option.pure_def] at hres
  by_cases hemp : (input.validated_entries.getD []).length = 0
  · rw [if_pos hemp] at hres
    cases hres
    refine ⟨List.Pairwise.nil, ?_⟩
    intro found hfound
    have hv : input.validated_entries.getD [] = [] := List.length_eq_zero.mp hemp
    rw [preSortTimes, hv] at hfound
    have hfound2 : some ([] : List OptimalTime) = some found := hfound
    cases hfound2
    exact ⟨rfl, fun k => rfl⟩
  · rw [if_neg hemp] at hres
    rcases Option.bind_eq_some.mp hres with ⟨found0, hfound0, hres⟩
    cases hres
    constructor
    · exact pairwise_insertionSortBy htot htrans found0
    · intro found hfound
      rw [hfound0] at hfound
      cases hfound
      refine ⟨rfl, fun k => ?_⟩
      apply filter_insertionSortBy
      intro a b ha hb
      simp only [decide_eq_true_eq] at ha hb
      exact otKeyLe_of_key_eq (hb.trans ha.symm)

theorem C6_result_ordering_witness :
    aggregate c6input = some c6res ∧
    (List.Pairwise (fun a b => otKeyLe b a = true) c6res.optimal_times ∧
      c6res.optimal_times = insertionSortBy (fun x y => otKeyLe y x) [c6otA, c6otB] ∧
      c6res.optimal_times.filter (fun x => decide (otKey x = (2, mkRat 67 100))) =
        [c6otA, c6otB].filter (fun x => decide (otKey x = (2, mkRat 67 100)))) :=
  ⟨by decide,
   (C6_result_ordering c6input c6res (by decide)).1,
   ((C6_result_ordering c6input c6res (by decide)).2 [c6otA, c6otB] (by decide)).1,
   ((C6_result_ordering c6input c6res (by decide)).2 [c6otA, c6otB] (by decide)).2
     (2, mkRat 67 100)⟩

/-! ## Claim C9: merge idempotence

The string comparison used by the merge sort agrees with comparison of the
parsed minute values on canonical (`HH:MM`, zero-padded, same-day) time
strings; this section establishes that bridge and the sweep invariants. -/

theorem pyStrLt_irrefl (s : Str) : pyStrLt s s = false := by
  induction s with
  | nil => rfl
  | cons a t ih => simp [pyStrLt, ih]

theorem pyStrLt_trans {a b c : Str} (h1 : pyStrLt a b = true)
    (h2 : pyStrLt b c = true) : pyStrLt a c = true := by
  induction a generalizing b c with
  | nil =>
    cases c with
    | nil =>
      cases b with
      | nil => exact h1
      | cons y ys => simp [pyStrLt] at h2
    | cons z zs => rfl
  | cons x xs ih =>
    cases b with
    | nil => simp [pyStrLt] at h1
    | cons y ys =>
      cases c with
      | nil => simp [pyStrLt] at h2
      | cons z zs =>
        simp only [pyStrLt] at h1 h2 ⊢
        by_cases hxy : x = y <;> by_cases hyz : y = z
        · subst hxy; subst hyz
          rw [if_pos rfl] at h1 h2 ⊢
          exact ih h1 h2
        · subst hxy
          rw [if_pos rfl] at h1
          rw [if_neg hyz] at h2 ⊢
          exact h2
        · subst hyz
          rw [if_pos rfl] at h2
          rw [if_neg hxy] at h1 ⊢
          exact h1
        · rw [if_neg hxy] at h1
          rw [if_neg hyz] at h2
          simp only [decide_eq_true_eq] at h1 h2
          by_cases hxz : x = z
          · subst hxz
            exact absurd (lt_trans h1 h2) (lt_irrefl x)
          · rw [if_neg hxz]
            simp only [decide_eq_true_eq]
            exact lt_trans h1 h2

theorem pyStrLt_trichot (a b : Str) :
    pyStrLt a b = true ∨ a = b ∨ pyStrLt b a = true := by
  induction a generalizing b with
  | nil =>
    cases b with
    | nil => exact Or.inr (Or.inl rfl)
    | cons y ys => exact Or.inl rfl
  | cons x xs ih =>
    cases b with
    | nil => exact Or.inr (Or.inr rfl)
    | cons y ys =>
      by_cases hxy : x = y
      · subst hxy
        rcases ih ys with h | h | h
        · exact Or.inl (by simp [pyStrLt, h])
        · exact Or.inr (Or.inl (by rw [h]))
        · exact Or.inr (Or.inr (by simp [pyStrLt, h]))
      · rcases lt_trichotomy x y with h | h | h
        · exact Or.inl (by simp [pyStrLt, hxy, h])
        · exact absurd h hxy
        · refine Or.inr (Or.inr ?_)
          have hyx : ¬ y = x := fun he => hxy he.symm
          simp [pyStrLt, hyx, h]

theorem pyStrLe_total (s t : Str) : pyStrLe s t = true ∨ pyStrLe t s = true := by
  unfold pyStrLe
  by_cases h : pyStrLt t s = true
  · right
    have hst : pyStrLt s t = false := by
      cases hc : pyStrLt s t with
      | false => rfl
      | true => exact absurd (pyStrLt_trans h hc) (by simp [pyStrLt_irrefl])
    simp [hst]
  · left
    simp [Bool.not_eq_true] at h
    simp [h]

theorem pyStrLe_trans {s t u : Str} (h1 : pyStrLe s t = true)
    (h2 : pyStrLe t u = true) : pyStrLe s u = true := by
  unfold pyStrLe at h1 h2 ⊢
  simp only [Bool.not_eq_true'] at h1 h2 ⊢
  cases hc : pyStrLt u s with
  | false => rfl
  | true =>
    exfalso
    rcases pyStrLt_trichot s t with h | h | h
    · have := pyStrLt_trans hc h
      rw [this] at h2; cases h2
    · rw [h] at hc
      rw [hc] at h2; cases h2
    · rw [h] at h1; cases h1

set_option maxHeartbeats 1000000 in
theorem fmt02_len2 : ∀ a : Nat, a < 100 → (fmt02 (a : Int)).length = 2 := by
  decide

set_option maxHeartbeats 2000000 in
theorem fmt02_cmp24 : ∀ a : Nat, a < 24 → ∀ b : Nat, b < 24 →
    ((pyStrLt (fmt02 (a : Int)) (fmt02 (b : Int)) = true) ↔ a < b) ∧
      ((fmt02 (a : Int) = fmt02 (b : Int)) ↔ a = b) := by
  decide

set_option maxHeartbeats 4000000 in
set_option maxRecDepth 10000 in
theorem fmt02_cmp60 : ∀ a : Nat, a < 60 → ∀ b : Nat, b < 60 →
    ((pyStrLt (fmt02 (a : Int)) (fmt02 (b : Int)) = true) ↔ a < b) := by
  decide

theorem pyStrLt_append2 {a1 a2 : Str} (h1 : a1.length = 2)
    (h2 : a2.length = 2) (b1 b2 : Str) :
    pyStrLt (a1 ++ ':' :: b1) (a2 ++ ':' :: b2) = true ↔
      (pyStrLt a1 a2 = true ∨ (a1 = a2 ∧ pyStrLt b1 b2 = true)) := by
  rcases List.length_eq_two.mp h1 with ⟨x1, y1, rfl⟩
  rcases List.length_eq_two.mp h2 with ⟨x2, y2, rfl⟩
  simp only [List.cons_append, List.nil_append]
  by_cases hx : x1 = x2 <;> by_cases hy : y1 = y2 <;>
    simp [pyStrLt, hx, hy]

theorem minutesToTime_lt_iff {m n : Nat} (hm : m < 1440) (hn : n < 1440) :
    (pyStrLt (minutesToTime (m : Int)) (minutesToTime (n : Int)) = true) ↔
      m < n := by
  have hfd : ∀ k : Nat, ((k : Int)).fdiv 60 = ((k / 60 : Nat) : Int) := by
    intro k; cases k <;> rfl
  have hfm : ∀ k : Nat, ((k : Int)).fmod 60 = ((k % 60 : Nat) : Int) := by
    intro k; cases k <;> rfl
  unfold minutesToTime
  rw [hfd, hfd, hfm, hfm]
  rw [pyStrLt_append2 (fmt02_len2 _ (by omega)) (fmt02_len2 _ (by omega))]
  have hhour := fmt02_cmp24 (m / 60) (by omega) (n / 60) (by omega)
  have hmin := fmt02_cmp60 (m % 60) (by omega) (n % 60) (by omega)
  rw [hhour.1, hhour.2, hmin]
  omega

/-- Content of a canonical time string: a same-day minute value that the
codec round-trips. -/
theorem canonicalTime_spec {s : Str} (h : canonicalTime s = true) :
    ∃ m : Nat, m < 1440 ∧ timeToMinutes s = some ((m : Nat) : Int) ∧
      minutesToTime ((m : Nat) : Int) = s ∧ minOf s = ((m : Nat) : Int) := by
  unfold canonicalTime at h
  cases ht : timeToMinutes s with
  | none => simp [ht] at h
  | some mi =>
    rw [ht] at h
    simp only [Bool.and_eq_true, decide_eq_true_eq] at h
    obtain ⟨⟨h0, h1⟩, h2⟩ := h
    have hcast : ((mi.toNat : Nat) : Int) = mi := Int.toNat_of_nonneg h0
    refine ⟨mi.toNat, by omega, ?_, ?_, ?_⟩
    · rw [hcast]
    · rw [hcast]; exact h2
    · rw [hcast]; unfold minOf; rw [ht]; rfl

/-- On canonical time strings, Python string order is minute order. -/
theorem pyStrLe_iff_minOf {s t : Str} (hs : canonicalTime s = true)
    (ht : canonicalTime t = true) :
    (pyStrLe s t = true) ↔ minOf s ≤ minOf t := by
  obtain ⟨m, hm, hms, hmm, hmv⟩ := canonicalTime_spec hs
  obtain ⟨n, hn, hns, hnm, hnv⟩ := canonicalTime_spec ht
  rw [hmv, hnv]
  unfold pyStrLe
  rw [← hmm, ← hnm]
  constructor
  · intro h
    by_contra hcon
    push_neg at hcon
    have : n < m := by exact_mod_cast hcon
    have := (minutesToTime_lt_iff hn hm).mpr this
    rw [this] at h
    cases h
  · intro h
    have hle : n < m → False := by
      intro hlt
      have : (n : Int) < m := by exact_mod_cast hlt
      omega
    cases hc : pyStrLt (minutesToTime ((n : Nat) : Int)) (minutesToTime ((m : Nat) : Int)) with
    | false => rfl
    | true => exact absurd ((minutesToTime_lt_iff hn hm).mp hc) hle

/-- Invariant sweep for the merge loop on canonical records: the loop
succeeds, and its output consists of canonical records, is sorted by start
string, and has a strictly positive gap between consecutive records. -/
theorem mergeLoop_run {l : List Inter} :
    ∀ acc : List Inter,
      (∀ r ∈ l, canonRec r) → (∀ r ∈ acc, canonRec r) →
      List.Pairwise (fun a b => pyStrLe a.start b.start = true) l →
      (∀ a ∈ acc, ∀ r ∈ l, pyStrLe a.start r.start = true) →
      List.Pairwise (fun a b => pyStrLe b.start a.start = true) acc →
      List.Chain' (fun a b => gapMin b a) acc →
      ∃ out, mergeLoop acc l = some out ∧
        (∀ r ∈ out, canonRec r) ∧
        List.Pairwise (fun a b => pyStrLe a.start b.start = true) out ∧
        List.Chain' gapMin out := by
  induction l with
  | nil =>
    intro acc hcl hca hsl hbr hsa hch
    refine ⟨acc.reverse, by simp [mergeLoop], ?_, ?_, ?_⟩
    · intro r hr
      exact hca r (List.mem_reverse.mp hr)
    · exact List.pairwise_reverse.mpr hsa
    · exact List.chain'_reverse.mpr hch
  | cons inter rest ih =>
    intro acc hcl hca hsl hbr hsa hch
    have hcinter : canonRec inter := hcl inter (List.mem_cons_self _ _)
    have hcrest : ∀ r ∈ rest, canonRec r :=
      fun r hr => hcl r (List.mem_cons_of_mem _ hr)
    have hslr := List.pairwise_cons.mp hsl
    match acc with
    | [] =>
      obtain ⟨out, hout, h1, h2, h3⟩ := ih [inter] hcrest
        (fun r hr => by rw [List.mem_singleton.mp hr]; exact hcinter)
        hslr.2
        (fun a ha r hr => by rw [List.mem_singleton.mp ha]; exact hslr.1 r hr)
        (List.pairwise_singleton _ _)
        (List.chain'_singleton _)
      exact ⟨out, by simpa [mergeLoop] using hout, h1, h2, h3⟩
    | last :: accTail =>
      have hclast : canonRec last := hca last (List.mem_cons_self _ _)
      have hsal := List.pairwise_cons.mp hsa
      obtain ⟨lem, hlem⟩ : ∃ v, timeToMinutes last.«end» = some v := by
        obtain ⟨m, -, hp, -, -⟩ := canonicalTime_spec hclast.2
        exact ⟨_, hp⟩
      obtain ⟨ism, hism⟩ : ∃ v, timeToMinutes inter.start = some v := by
        obtain ⟨m, -, hp, -, -⟩ := canonicalTime_spec hcinter.1
        exact ⟨_, hp⟩
      by_cases hcmp : ism ≤ lem
      · obtain ⟨iem, hiem⟩ : ∃ v, timeToMinutes inter.«end» = some v := by
          obtain ⟨m, -, hp, -, -⟩ := canonicalTime_spec hcinter.2
          exact ⟨_, hp⟩
        have hcacc : ∀ r ∈ mergeRecords last inter
            (if lem < iem then inter.«end» else last.«end») :: accTail,
            canonRec r := by
          intro r hr
          rcases List.mem_cons.mp hr with rfl | hr
          · refine ⟨hclast.1, ?_⟩
            show canonicalTime (if lem < iem then inter.«end» else last.«end») = true
            by_cases hee : lem < iem
            · rw [if_pos hee]; exact hcinter.2
            · rw [if_neg hee]; exact hclast.2
          · exact hca r (List.mem_cons_of_mem _ hr)
        have hcbr : ∀ a ∈ mergeRecords last inter
            (if lem < iem then inter.«end» else last.«end») :: accTail,
            ∀ r ∈ rest, pyStrLe a.start r.start = true := by
          intro a ha r hr
          rcases List.mem_cons.mp ha with rfl | ha
          · exact hbr last (List.mem_cons_self _ _) r (List.mem_cons_of_mem _ hr)
          · exact hbr a (List.mem_cons_of_mem _ ha) r (List.mem_cons_of_mem _ hr)
        have hcsa : List.Pairwise (fun a b => pyStrLe b.start a.start = true)
            (mergeRecords last inter
              (if lem < iem then inter.«end» else last.«end») :: accTail) := by
          refine List.pairwise_cons.mpr ⟨?_, hsal.2⟩
          intro b hb
          exact hsal.1 b hb
        have hcch : List.Chain' (fun a b => gapMin b a)
            (mergeRecords last inter
              (if lem < iem then inter.«end» else last.«end») :: accTail) := by
          cases accTail with
          | nil => exact List.chain'_singleton _
          | cons t ts =>
            refine List.chain'_cons.mpr ⟨?_, (List.chain'_cons.mp hch).2⟩
            exact (List.chain'_cons.mp hch).1
        obtain ⟨out, hout, h1, h2, h3⟩ := ih _ hcrest hcacc hslr.2 hcbr hcsa hcch
        refine ⟨out, ?_, h1, h2, h3⟩
        show mergeLoop (last :: accTail) (inter :: rest) = some out
        refine Option.bind_eq_some.mpr ⟨lem, hlem, ?_⟩
        refine Option.bind_eq_some.mpr ⟨ism, hism, ?_⟩
        rw [if_pos hcmp]
        refine Option.bind_eq_some.mpr ⟨iem, hiem, ?_⟩
        exact hout
      · have hdacc : ∀ r ∈ inter :: last :: accTail, canonRec r := by
          intro r hr
          rcases List.mem_cons.mp hr with rfl | hr
          · exact hcinter
          · exact hca r hr
        have hdbr : ∀ a ∈ inter :: last :: accTail, ∀ r ∈ rest,
            pyStrLe a.start r.start = true := by
          intro a ha r hr
          rcases List.mem_cons.mp ha with rfl | ha
          · exact hslr.1 r hr
          · exact hbr a ha r (List.mem_cons_of_mem _ hr)
        have hdsa : List.Pairwise (fun a b => pyStrLe b.start a.start = true)
            (inter :: last :: accTail) := by
          refine List.pairwise_cons.mpr ⟨?_, hsa⟩
          intro b hb
          exact hbr b hb inter (List.mem_cons_self _ _)
        have hdch : List.Chain' (fun a b => gapMin b a)
            (inter :: last :: accTail) := by
          refine List.chain'_cons.mpr ⟨?_, hch⟩
          show gapMin last inter
          unfold gapMin minOf
          rw [hlem, hism]
          simp only [Option.getD_some]
          omega
        obtain ⟨out, hout, h1, h2, h3⟩ := ih _ hcrest hdacc hslr.2 hdbr hdsa hdch
        refine ⟨out, ?_, h1, h2, h3⟩
        show mergeLoop (last :: accTail) (inter :: rest) = some out
        refine Option.bind_eq_some.mpr ⟨lem, hlem, ?_⟩
        refine Option.bind_eq_some.mpr ⟨ism, hism, ?_⟩
        rw [if_neg hcmp]
        exact hout

/-- Run of the merge step on canonical records: it succeeds and its output
is canonical, start-sorted, and consecutively gapped. -/
theorem mergeIntersections_run {xs : List Inter}
    (hc : ∀ r ∈ xs, canonRec r) :
    ∃ ys, mergeIntersections xs = some ys ∧ (∀ r ∈ ys, canonRec r) ∧
      List.Pairwise (fun a b => pyStrLe a.start b.start = true) ys ∧
      List.Chain' gapMin ys := by
  unfold mergeIntersections
  split_ifs with he
  · refine ⟨[], rfl, ?_, List.Pairwise.nil, List.chain'_nil⟩
    intro r hr
    cases hr
  · have htot : ∀ a b : Inter,
        (fun a b : Inter => pyStrLe a.start b.start) a b = true ∨
        (fun a b : Inter => pyStrLe a.start b.start) b a = true :=
      fun a b => pyStrLe_total a.start b.start
    have htrans : ∀ a b c : Inter,
        (fun a b : Inter => pyStrLe a.start b.start) a b = true →
        (fun a b : Inter => pyStrLe a.start b.start) b c = true →
        (fun a b : Inter => pyStrLe a.start b.start) a c = true :=
      fun a b c h1 h2 => pyStrLe_trans h1 h2
    have hsorted := pairwise_insertionSortBy htot htrans xs
    exact mergeLoop_run [] (fun r hr => hc r (mem_insertionSortBy.mp hr))
      (fun r hr => absurd hr (List.not_mem_nil r))
      hsorted
      (fun a ha => absurd ha (List.not_mem_nil a))
      List.Pairwise.nil
      List.chain'_nil

/-- The sweep leaves a canonical, consecutively-gapped list untouched. -/
theorem mergeLoop_fixed {l : List Inter} :
    ∀ (last : Inter) (accTail : List Inter),
      canonRec last → (∀ r ∈ l, canonRec r) →
      List.Chain' gapMin (last :: l) →
      mergeLoop (last :: accTail) l = some (accTail.reverse ++ last :: l) := by
  induction l with
  | nil =>
    intro last accTail _ _ _
    simp [mergeLoop]
  | cons inter rest ih =>
    intro last accTail hclast hcl hch
    have hcinter : canonRec inter := hcl inter (List.mem_cons_self _ _)
    obtain ⟨lem, hlem⟩ : ∃ v, timeToMinutes last.«end» = some v := by
      obtain ⟨m, -, hp, -, -⟩ := canonicalTime_spec hclast.2
      exact ⟨_, hp⟩
    obtain ⟨ism, hism⟩ : ∃ v, timeToMinutes inter.start = some v := by
      obtain ⟨m, -, hp, -, -⟩ := canonicalTime_spec hcinter.1
      exact ⟨_, hp⟩
    have hgap : gapMin last inter := (List.chain'_cons.mp hch).1
    have hnle : ¬ (ism ≤ lem) := by
      unfold gapMin minOf at hgap
      rw [hlem, hism] at hgap
      simp only [Option.getD_some] at hgap
      omega
    show mergeLoop (last :: accTail) (inter :: rest) = _
    refine Option.bind_eq_some.mpr ⟨lem, hlem, ?_⟩
    refine Option.bind_eq_some.mpr ⟨ism, hism, ?_⟩
    rw [if_neg hnle]
    have := ih inter (last :: accTail) hcinter
      (fun r hr => hcl r (List.mem_cons_of_mem _ hr))
      (List.chain'_cons.mp hch).2
    rw [this]
    simp

/-- Consecutive gaps extend to all ordered pairs when starts are sorted. -/
theorem chain_gap_pairwise {ys : List Inter}
    (hc : ∀ r ∈ ys, canonRec r)
    (hs : List.Pairwise (fun a b => pyStrLe a.start b.start = true) ys)
    (hch : List.Chain' gapMin ys) :
    List.Pairwise gapMin ys := by
  induction ys with
  | nil => exact List.Pairwise.nil
  | cons r t ihy =>
    have hct : ∀ x ∈ t, canonRec x := fun x hx => hc x (List.mem_cons_of_mem _ hx)
    have hst := (List.pairwise_cons.mp hs).2
    refine List.pairwise_cons.mpr ⟨?_, ihy hct hst (List.Chain'.tail hch)⟩
    intro b hb
    cases t with
    | nil => cases hb
    | cons r2 t2 =>
      have hgap12 : gapMin r r2 := (List.chain'_cons.mp hch).1
      rcases List.mem_cons.mp hb with rfl | hb2
      · exact hgap12
      · have hle : pyStrLe r2.start b.start = true :=
          (List.pairwise_cons.mp hst).1 b hb2
        have h2c : canonRec r2 := hc r2 (List.mem_cons_of_mem _ (List.mem_cons_self _ _))
        have hbc : canonRec b :=
          hc b (List.mem_cons_of_mem _ (List.mem_cons_of_mem _ hb2))
        have hmono := (pyStrLe_iff_minOf h2c.1 hbc.1).mp hle
        unfold gapMin at hgap12 ⊢
        omega

/-- C9: re-running `_merge_intersections` on its own output returns the
same list, and any two distinct intervals of that output are separated by a
strictly positive gap (the later interval starts strictly after the earlier
one ends, in minutes).  The records are assumed to carry canonical `HH:MM`
strings, as every record produced from validated input does. -/
theorem C9_merge_idempotent (xs ys : List Inter)
    (hc : ∀ r ∈ xs, canonicalTime r.start = true ∧ canonicalTime r.«end» = true)
    (h1 : mergeIntersections xs = some ys) :
    mergeIntersections ys = some ys ∧
      List.Pairwise (fun a b => minOf a.«end» < minOf b.start) ys := by
  obtain ⟨ys', hys', hcy, hsy, hchy⟩ := mergeIntersections_run hc
  rw [h1] at hys'
  have hyy : ys = ys' := by
    cases hys'
    rfl
  subst hyy
  constructor
  · unfold mergeIntersections
    split_ifs with he
    · rw [List.isEmpty_iff.mp he]
    · have htot : ∀ a b : Inter,
          (fun a b : Inter => pyStrLe a.start b.start) a b = true ∨
          (fun a b : Inter => pyStrLe a.start b.start) b a = true :=
        fun a b => pyStrLe_total a.start b.start
      rw [insertionSortBy_eq_self hsy]
      cases hys : ys with
      | nil => rw [hys] at he; simp at he
      | cons y t =>
        rw [hys] at hcy hchy
        have := mergeLoop_fixed y []
          (hcy y (List.mem_cons_self _ _))
          (fun r hr => hcy r (List.mem_cons_of_mem _ hr))
          hchy
        show mergeLoop [] (y :: t) = some (y :: t)
        simpa [mergeLoop] using this
  · exact chain_gap_pairwise hcy hsy hchy

theorem C9_merge_idempotent_witness :
    (∀ r ∈ [c9rec1, c9rec2],
      canonicalTime r.start = true ∧ canonicalTime r.«end» = true) ∧
    mergeIntersections [c9rec1, c9rec2] = some [c9rec1, c9rec2] ∧
    (mergeIntersections [c9rec1, c9rec2] = some [c9rec1, c9rec2] ∧
      List.Pairwise (fun a b => minOf a.«end» < minOf b.start)
        [c9rec1, c9rec2]) :=
  ⟨by decide, by decide,
   C9_merge_idempotent [c9rec1, c9rec2] [c9rec1, c9rec2] (by decide) (by decide)⟩

end Sync
